import Mathlib

/-!
Verification of the `promptpath` repository.

The repository has two Python scripts:

* `scripts/promptpath.py` — computes a shortened, alias-aware display string
  for the current working directory;
* `scripts/benchmark.py` — benchmarks two implementations of that utility by
  launching them as subprocesses and reporting timing statistics.

This file gives a shallow embedding of both scripts and proves/refutes the
frozen claims about them.  Python strings are modelled as `List Char`; the
POSIX path helpers used by the scripts (`os.path.normpath`,
`os.path.expanduser`, `str.replace(old, new, 1)`, `str.startswith`) are
embedded faithfully from their CPython reference semantics.  The process
environment is modelled by explicit parameters: `home` stands for the value
of the `HOME` environment variable, and the current working directory is an
explicit argument.  `os.path.expanduser` consults the password database for
`~user` forms; the environment is modelled with no password entries, so such
forms pass through unchanged (exactly CPython's behaviour for an unknown
user).
-/

set_option maxRecDepth 10000

namespace PromptPath

/-- Python `path.split('/')`: split a character list at every `'/'`,
keeping empty pieces.  `splitSlash [] = [[]]`, matching `"".split("/")`. -/
def splitSlash : List Char → List (List Char)
  | [] => [[]]
  | c :: rest =>
    if c = '/' then [] :: splitSlash rest
    else
      match splitSlash rest with
      | [] => [[c]]
      | s :: ss => (c :: s) :: ss

/-- Python `'/'.join(parts)` on character lists. -/
def joinSep : List (List Char) → List Char
  | [] => []
  | [x] => x
  | x :: y :: rest => x ++ '/' :: joinSep (y :: rest)

/-- Python `s.rstrip('/')`: drop trailing `'/'` characters. -/
def rstripSlash (s : List Char) : List Char :=
  (s.reverse.dropWhile (fun c => c = '/')).reverse

/-- Python `s.replace(old, new, 1)`: replace the first (leftmost) occurrence
of `old` in `s` by `new`; if `old` does not occur, return `s` unchanged.
As in Python, the empty pattern matches at position 0. -/
def replaceFirst (old new : List Char) : List Char → List Char
  | [] => if old.isPrefixOf ([] : List Char) then new else []
  | c :: rest =>
    if old.isPrefixOf (c :: rest) then new ++ (c :: rest).drop old.length
    else c :: replaceFirst old new rest

/-- Embedding of `os.path.expanduser` (posixpath): expand a leading `~` or
`~/...` using the `HOME` environment variable (passed as `home`); a `~user`
form is looked up in the password database, which is modelled as empty, so
it is returned unchanged (CPython's behaviour for an unknown user). -/
def expanduser (home : List Char) : List Char → List Char
  | [] => []
  | c :: rest =>
    if c ≠ '~' then c :: rest
    else if rest = [] ∨ rest.head? = some '/' then
      let r := rstripSlash home ++ rest
      if r = [] then ['/'] else r
    else c :: rest

/-- Number of initial slashes retained by `os.path.normpath`: POSIX keeps one
or two leading separators and collapses three or more into one. -/
def initialSlashes (path : List Char) : Nat :=
  if (['/', '/']).isPrefixOf path ∧ ¬ (['/', '/', '/']).isPrefixOf path then 2
  else if (['/']).isPrefixOf path then 1 else 0

/-- One step of the component loop of `os.path.normpath`: skip empty and `.`
components; append any other component unless it is a `..` that cancels a
previous real component. -/
def normStep (init : Nat) (acc : List (List Char)) (comp : List Char) :
    List (List Char) :=
  if comp = [] ∨ comp = ['.'] then acc
  else if comp ≠ ['.', '.'] ∨ (init = 0 ∧ acc = []) ∨ acc.head? = some ['.', '.'] then
    comp :: acc
  else acc.tail

/-- Component list produced by `os.path.normpath` (the accumulator is kept
reversed during the fold, then reversed back). -/
def normComps (init : Nat) (comps : List (List Char)) : List (List Char) :=
  (comps.foldl (normStep init) []).reverse

/-- Embedding of `os.path.normpath` (posixpath): purely lexical
normalization — collapse separators, drop `.`, resolve `..` where legal. -/
def normpath (path : List Char) : List Char :=
  if path = [] then ['.']
  else
    let init := initialSlashes path
    let p := List.replicate init '/' ++ joinSep (normComps init (splitSlash path))
    if p = [] then ['.'] else p

/-- `normalize_path` from `scripts/promptpath.py`:
`os.path.normpath(os.path.expanduser(path))`. -/
def normalize_path (home : List Char) (path : List Char) : List Char :=
  normpath (expanduser home path)

/-- The `CODE_ROOT` configuration constant of `scripts/promptpath.py`. -/
def CODE_ROOT : List Char := "~/code".toList

/-- The `PROJECT_MAPPINGS` configuration of `scripts/promptpath.py`
(a dict with one entry, taken in insertion order). -/
def PROJECT_MAPPINGS : List (List Char × List Char) :=
  [("~/code/github.com/ethereum-optimism/optimism".toList, "optimism".toList)]

/-- Python `max(l, key=fun x => (len x.1))` on a nonempty list: scan left to
right, keeping the current item unless a strictly larger key appears (so the
first item with the maximal key wins, as in CPython). -/
def pyMaxByFstLen (l : List (List Char × List Char)) :
    Option (List Char × List Char) :=
  match l with
  | [] => none
  | x :: xs =>
    some (xs.foldl (fun cur y => if cur.1.length < y.1.length then y else cur) x)

/-- `find_project_alias` from `scripts/promptpath.py`: normalize the input,
keep the mappings whose normalized pattern is a string prefix of it, and
take the one with the longest raw pattern (`max` with `key=len`); `None`
when no pattern matches.  The mapping table is passed as a parameter (it is
a module-level constant in the script). -/
def find_project_alias (mappings : List (List Char × List Char))
    (home : List Char) (pwd : List Char) : Option (List Char × List Char) :=
  let pwdN := normalize_path home pwd
  pyMaxByFstLen
    (mappings.filter (fun m => (normalize_path home m.1).isPrefixOf pwdN))

/-- `strip_leading_slash` from `scripts/promptpath.py`:
`path[1:] if path and path[0] == "/" else path`. -/
def strip_leading_slash (path : List Char) : List Char :=
  match path with
  | [] => []
  | c :: rest => if c = '/' then rest else c :: rest

/-- The display-form step of `get_pathname` (line 37 of the script):
`os.getcwd().replace(os.path.expanduser('~'), '~', 1)`. -/
def display_form (home : List Char) (cwd : List Char) : List Char :=
  replaceFirst (expanduser home ['~']) ['~'] cwd

/-- `get_pathname` from `scripts/promptpath.py`.  `cwd` stands for
`os.getcwd()` and `home` for the `HOME` environment variable; the mapping
table is passed as a parameter. -/
def get_pathname (mappings : List (List Char × List Char))
    (home : List Char) (cwd : List Char) : List Char :=
  let pwd := display_form home cwd
  match find_project_alias mappings home pwd with
  | some ma =>
    strip_leading_slash (replaceFirst ma.1 ma.2 pwd)
  | none =>
    if pwd = CODE_ROOT then pwd.drop 2
    else strip_leading_slash (replaceFirst CODE_ROOT [] pwd)

/-- Adjacent doubled separator detector, used to state side conditions on
working directories. -/
def hasDoubleSlash : List Char → Bool
  | [] => false
  | [_] => false
  | a :: b :: t => (a = '/' && b = '/') || hasDoubleSlash (b :: t)

/-- The segment decomposition of the alias pattern of `PROJECT_MAPPINGS`
(the pattern is `'~' :: '/' :: joinSep codeSegs`). -/
def codeSegs : List (List Char) :=
  ["code".toList, "github.com".toList, "ethereum-optimism".toList,
   "optimism".toList]

/-- A well-formed path segment: nonempty, not `.` or `..`, and without a
separator.  Canonical absolute paths are built from such segments. -/
def goodSeg (c : List Char) : Prop :=
  c ≠ [] ∧ c ≠ ['.'] ∧ c ≠ ['.', '.'] ∧ '/' ∉ c

instance : DecidablePred goodSeg := fun c => by
  unfold goodSeg; infer_instance

/-- Invariant of the accumulator of the `normpath` component loop: real
segments first (the accumulator is reversed), then a run of `..`
components, the latter only when there is no initial separator. -/
def NormAcc (init : Nat) (acc : List (List Char)) : Prop :=
  ∃ gs d, acc = gs ++ List.replicate d ['.', '.'] ∧ (∀ c ∈ gs, goodSeg c) ∧
    (init ≠ 0 → d = 0)



/-! ## Embedding of `scripts/benchmark.py`

The benchmark launches subprocesses and measures wall-clock durations.  The
timing environment is modelled by a function `env : Nat → Option ℚ` giving,
for the `k`-th subprocess invocation of the run, either its measured
duration in milliseconds (`some d`) or `none` when that invocation fails
(executable not found, or non-zero exit status — `subprocess.run` with
`check=True` raises in both cases).  Durations are modelled as rationals;
the sample standard deviation is modelled by its square (the variance with
the `n-1` divisor), since the square root of a rational is irrational in
general and the square determines the standard deviation.
-/

/-- Ways a benchmark run can fail: a subprocess raises (captured by its
invocation index), or one of the `statistics`/`min` calls raises on a
degenerate sample list. -/
inductive BenchError where
  | processFailure (invocation : Nat)
  | statisticsEmpty
  | statisticsFewData
deriving DecidableEq

/-- The result dict of `benchmark_command` (`stddevSq` is the square of the
reported sample standard deviation). -/
structure BenchResult where
  name : List Char
  min : ℚ
  max : ℚ
  mean : ℚ
  median : ℚ
  stddevSq : ℚ
deriving DecidableEq

/-- `run_command` from `scripts/benchmark.py`: run one subprocess and return
its duration, or raise if the launch fails (`check=True`). -/
def run_command (env : Nat → Option ℚ) (k : Nat) : Except BenchError ℚ :=
  match env k with
  | some d => .ok d
  | none => .error (.processFailure k)

/-- A straight-line sequence of `n` subprocess invocations starting at
invocation index `start`, collecting the durations in order; the first
failure aborts the whole sequence (exception propagation). -/
def runSeq (env : Nat → Option ℚ) : Nat → Nat → Except BenchError (List ℚ)
  | _, 0 => .ok []
  | start, n + 1 => do
    let d ← run_command env start
    let rest ← runSeq env (start + 1) n
    return d :: rest

/-- Python `min(l)`: `None` on the empty list (where CPython raises
`ValueError`). -/
def listMin : List ℚ → Option ℚ
  | [] => none
  | x :: xs => some (xs.foldl min x)

/-- Python `max(l)`: `None` on the empty list. -/
def listMax : List ℚ → Option ℚ
  | [] => none
  | x :: xs => some (xs.foldl max x)

/-- `statistics.mean`: arithmetic mean, undefined on the empty list. -/
def pyMean (l : List ℚ) : Option ℚ :=
  if l = [] then none else some (l.sum / l.length)

/-- `statistics.median`: sort, take the middle element (odd length) or the
average of the two middle elements (even length); undefined on the empty
list. -/
def pyMedian (l : List ℚ) : Option ℚ :=
  if l = [] then none
  else if l.length % 2 = 1 then
    some ((l.mergeSort (fun a b => a ≤ b)).getD (l.length / 2) 0)
  else
    some (((l.mergeSort (fun a b => a ≤ b)).getD (l.length / 2 - 1) 0
      + (l.mergeSort (fun a b => a ≤ b)).getD (l.length / 2) 0) / 2)

/-- The square of `statistics.stdev`: the sample variance with the unbiased
`n-1` divisor; undefined on lists with fewer than two elements (where
CPython raises `StatisticsError`). -/
def stdevSq (l : List ℚ) : Option ℚ :=
  if l.length < 2 then none
  else
    let m := l.sum / l.length
    some ((l.map (fun x => (x - m) ^ 2)).sum / ((l.length : ℚ) - 1))

/-- Convert a partial statistic into the exception monad of the benchmark. -/
def ofStat (o : Option ℚ) (e : BenchError) : Except BenchError ℚ :=
  match o with
  | some a => .ok a
  | none => .error e

/-- `benchmark_command` from `scripts/benchmark.py`: five warm-up
invocations whose durations are discarded, then `iterations` measured
invocations retained in order, then the statistics of the retained list, in
the evaluation order of the result dict.  `start` is the index of the first
subprocess invocation this call performs (the script orders all invocations
of a run sequentially). -/
def benchmark_command (env : Nat → Option ℚ) (name : List Char)
    (start iterations : Nat) : Except BenchError BenchResult := do
  let _ ← runSeq env start 5
  let times ← runSeq env (start + 5) iterations
  let mn ← ofStat (listMin times) .statisticsEmpty
  let mx ← ofStat (listMax times) .statisticsEmpty
  let me ← ofStat (pyMean times) .statisticsEmpty
  let md ← ofStat (pyMedian times) .statisticsEmpty
  let sd ← ofStat (stdevSq times) .statisticsFewData
  return { name := name, min := mn, max := mx, mean := me, median := md,
           stddevSq := sd }

/-- Boolean success test for the exception monad of the benchmark. -/
def exceptSucceeded {α : Type} : Except BenchError α → Bool
  | .ok _ => true
  | .error _ => false

/-- Number of subprocess invocations a successful `benchmark_command`
performs: five warm-ups plus the measured iterations. -/
def benchCost (iterations : Nat) : Nat := 5 + iterations

/-- The per-directory body of `main`: benchmark the Python candidate, then
the Rust candidate (the second starts only if the first succeeded, so its
invocation indices follow the first block). -/
def benchPair (env : Nat → Option ℚ) (start iterations : Nat) :
    Except BenchError (BenchResult × BenchResult) := do
  let py ← benchmark_command env "Python".toList start iterations
  let rs ← benchmark_command env "Rust".toList (start + benchCost iterations)
    iterations
  return (py, rs)

/-- Number of subprocess invocations of one fully successful directory
comparison (two candidates). -/
def benchBlock (iterations : Nat) : Nat := 2 * benchCost iterations

/-- The literal `test_dirs` list of `scripts/benchmark.py`. -/
def test_dirs : List (List Char) :=
  ["~/code/github.com/ethereum-optimism/optimism".toList,
   "~/code/github.com/ethereum-optimism/optimism/op-node".toList,
   "~/code".toList]

/-- The directory loop of `main`: process the directories in order,
printing one report (a pair of `BenchResult`s) per directory; the first
subprocess failure aborts the whole run, producing no report for the
directory in progress and never reaching the remaining ones. -/
def mainLoop (env : Nat → Option ℚ) (iterations : Nat) :
    List (List Char) → Nat → List (BenchResult × BenchResult) × Option BenchError
  | [], _ => ([], none)
  | _ :: rest, start =>
    match benchPair env start iterations with
    | .error e => ([], some e)
    | .ok pr =>
      match mainLoop env iterations rest (start + benchBlock iterations) with
      | (rs, err) => (pr :: rs, err)

/-- `main` of `scripts/benchmark.py`: the three test directories, 1000
iterations per candidate. -/
def main_run (env : Nat → Option ℚ) :
    List (BenchResult × BenchResult) × Option BenchError :=
  mainLoop env 1000 test_dirs 0


end PromptPath

namespace PromptPath

/-! ### Lemmas about `splitSlash` and `joinSep` -/

theorem splitSlash_ne_nil (s : List Char) : splitSlash s ≠ [] := by
  induction s with
  | nil => simp [splitSlash]
  | cons c rest ih =>
    unfold splitSlash
    split
    · simp
    · cases h : splitSlash rest with
      | nil => simp
      | cons a as => simp

theorem no_slash_of_mem_splitSlash {s : List Char} {part : List Char}
    (h : part ∈ splitSlash s) : '/' ∉ part := by
  induction s generalizing part with
  | nil =>
    simp [splitSlash] at h; subst h; simp
  | cons c rest ih =>
    unfold splitSlash at h
    by_cases hc : c = '/'
    · simp [hc] at h
      rcases h with h | h
      · subst h; simp
      · exact ih h
    · simp [hc] at h
      cases hsp : splitSlash rest with
      | nil => exact absurd hsp (splitSlash_ne_nil rest)
      | cons a as =>
        rw [hsp] at h
        simp at h
        rcases h with h | h
        · subst h
          intro hm
          rcases List.mem_cons.mp hm with h1 | h1
          · exact hc h1.symm
          · exact ih (by rw [hsp]; exact List.mem_cons_self a as) h1
        · exact ih (by rw [hsp]; exact List.mem_cons_of_mem a h)

theorem splitSlash_append (a b : List Char) :
    splitSlash (a ++ '/' :: b) = splitSlash a ++ splitSlash b := by
  induction a with
  | nil => simp [splitSlash]
  | cons c a' ih =>
    by_cases hc : c = '/'
    · simp [splitSlash, hc, ih]
    · cases hsp : splitSlash a' with
      | nil => exact absurd hsp (splitSlash_ne_nil a')
      | cons x xs =>
        have hmid : splitSlash (a' ++ '/' :: b) = x :: (xs ++ splitSlash b) := by
          rw [ih, hsp]
          rfl
        have hL : splitSlash (c :: (a' ++ '/' :: b))
            = (c :: x) :: (xs ++ splitSlash b) := by
          simp only [splitSlash]
          rw [if_neg hc, hmid]
        have hR : splitSlash (c :: a') = (c :: x) :: xs := by
          simp only [splitSlash]
          rw [if_neg hc, hsp]
        show splitSlash (c :: (a' ++ '/' :: b)) = splitSlash (c :: a') ++ splitSlash b
        rw [hL, hR]
        simp

theorem splitSlash_of_no_slash {s : List Char} (h : '/' ∉ s) :
    splitSlash s = [s] := by
  induction s with
  | nil => rfl
  | cons c rest ih =>
    have hc : c ≠ '/' := fun hc => h (hc ▸ List.mem_cons_self c rest)
    have hr : '/' ∉ rest := fun hm => h (List.mem_cons_of_mem c hm)
    unfold splitSlash
    rw [if_neg hc, ih hr]

theorem splitSlash_joinSep {segs : List (List Char)} (h0 : segs ≠ [])
    (h1 : ∀ x ∈ segs, '/' ∉ x) : splitSlash (joinSep segs) = segs := by
  induction segs with
  | nil => exact absurd rfl h0
  | cons x rest ih =>
    cases rest with
    | nil =>
      simp only [joinSep]
      exact splitSlash_of_no_slash (h1 x (List.mem_cons_self x []))
    | cons y r =>
      have : joinSep (x :: y :: r) = x ++ '/' :: joinSep (y :: r) := rfl
      rw [this, splitSlash_append,
        splitSlash_of_no_slash (h1 x (List.mem_cons_self x (y :: r))),
        ih (by simp) (fun z hz => h1 z (List.mem_cons_of_mem x hz))]
      rfl

theorem joinSep_append {a b : List (List Char)} (ha : a ≠ []) (hb : b ≠ []) :
    joinSep (a ++ b) = joinSep a ++ '/' :: joinSep b := by
  induction a with
  | nil => exact absurd rfl ha
  | cons x a' ih =>
    cases a' with
    | nil =>
      cases b with
      | nil => exact absurd rfl hb
      | cons y r => simp [joinSep]
    | cons z r =>
      have h1 : joinSep (x :: z :: r) = x ++ '/' :: joinSep (z :: r) := rfl
      have h2 : (x :: z :: r) ++ b = x :: ((z :: r) ++ b) := rfl
      have h3 : joinSep (x :: ((z :: r) ++ b)) =
          x ++ '/' :: joinSep ((z :: r) ++ b) := by
        cases b with
        | nil => exact absurd rfl hb
        | cons y bs => rfl
      rw [h2, h3, ih (by simp), h1]
      simp

theorem joinSep_ne_nil {l : List (List Char)} (h0 : l ≠ [])
    (h1 : ∀ c ∈ l, c ≠ []) : joinSep l ≠ [] := by
  cases l with
  | nil => exact absurd rfl h0
  | cons x rest =>
    cases rest with
    | nil => exact h1 x (List.mem_cons_self x [])
    | cons y r =>
      have : joinSep (x :: y :: r) = x ++ '/' :: joinSep (y :: r) := rfl
      rw [this]
      simp

theorem joinSep_head {l : List (List Char)} (h0 : l ≠ [])
    (h1 : ∀ c ∈ l, c ≠ [] ∧ '/' ∉ c) :
    ∃ c0 t, joinSep l = c0 :: t ∧ c0 ≠ '/' := by
  cases l with
  | nil => exact absurd rfl h0
  | cons x rest =>
    obtain ⟨hx, hxs⟩ := h1 x (List.mem_cons_self x rest)
    obtain ⟨c0, t0, hx0⟩ : ∃ c0 t0, x = c0 :: t0 := by
      cases x with
      | nil => exact absurd rfl hx
      | cons a b => exact ⟨a, b, rfl⟩
    have hc0 : c0 ≠ '/' := by
      intro hc
      refine hxs ?_
      rw [hx0, ← hc]
      exact List.mem_cons_self c0 t0
    cases rest with
    | nil => exact ⟨c0, t0, by simp [joinSep, hx0], hc0⟩
    | cons y r =>
      refine ⟨c0, t0 ++ '/' :: joinSep (y :: r), ?_, hc0⟩
      show x ++ '/' :: joinSep (y :: r) = _
      rw [hx0]
      simp

theorem joinSep_reverse_head {l : List (List Char)} (h0 : l ≠ [])
    (h1 : ∀ c ∈ l, c ≠ [] ∧ '/' ∉ c) :
    ∃ c t, (joinSep l).reverse = c :: t ∧ c ≠ '/' := by
  induction l with
  | nil => exact absurd rfl h0
  | cons x rest ih =>
    cases rest with
    | nil =>
      obtain ⟨hx, hxs⟩ := h1 x (List.mem_cons_self x [])
      cases hx0 : x.reverse with
      | nil => exact absurd (List.reverse_eq_nil_iff.mp hx0) hx
      | cons c t =>
        refine ⟨c, t, by simpa [joinSep] using hx0, fun hc => ?_⟩
        exact hxs (by
          have : c ∈ x.reverse := hx0 ▸ List.mem_cons_self c t
          rw [List.mem_reverse] at this
          exact hc ▸ this)
    | cons y r =>
      obtain ⟨c, t, hct, hc⟩ := ih (by simp)
        (fun z hz => h1 z (List.mem_cons_of_mem x hz))
      have h2 : joinSep (x :: y :: r) = x ++ '/' :: joinSep (y :: r) := rfl
      refine ⟨c, t ++ '/' :: x.reverse, ?_, hc⟩
      rw [h2, List.reverse_append, List.reverse_cons, hct]
      simp

/-! ### Lemmas about `replaceFirst` -/

theorem isPrefixOf_iff {a b : List Char} :
    a.isPrefixOf b = true ↔ ∃ t, b = a ++ t := by
  induction a generalizing b with
  | nil => simp [List.isPrefixOf]
  | cons c a' ih =>
    cases b with
    | nil => simp [List.isPrefixOf]
    | cons d b' =>
      simp only [List.isPrefixOf, Bool.and_eq_true, beq_iff_eq, ih]
      constructor
      · rintro ⟨rfl, t, rfl⟩; exact ⟨t, rfl⟩
      · rintro ⟨t, h⟩
        injection h with h1 h2
        exact ⟨h1.symm, t, h2⟩

theorem replaceFirst_append_self (old new t : List Char) :
    replaceFirst old new (old ++ t) = new ++ t := by
  have hpre : old.isPrefixOf (old ++ t) = true := isPrefixOf_iff.mpr ⟨t, rfl⟩
  cases h : old ++ t with
  | nil =>
    have : old = [] ∧ t = [] := List.append_eq_nil.mp h
    simp [replaceFirst, this.1, this.2, List.isPrefixOf]
  | cons c rest =>
    rw [replaceFirst, if_pos (h ▸ hpre), ← h, List.drop_left]

theorem replaceFirst_cases (old new : List Char) (s : List Char) :
    replaceFirst old new s = s ∨
      ∃ pre suf, s = pre ++ old ++ suf ∧
        replaceFirst old new s = pre ++ new ++ suf := by
  induction s with
  | nil =>
    by_cases h : old.isPrefixOf ([] : List Char) = true
    · obtain ⟨t, ht⟩ := isPrefixOf_iff.mp h
      have : old = [] ∧ t = [] := List.append_eq_nil.mp ht.symm
      right
      exact ⟨[], [], by simp [this.1], by simp [replaceFirst, h, this.1]⟩
    · left
      simp only [replaceFirst]
      rw [if_neg (by simpa using h)]
  | cons c rest ih =>
    by_cases h : old.isPrefixOf (c :: rest) = true
    · obtain ⟨t, ht⟩ := isPrefixOf_iff.mp h
      right
      refine ⟨[], t, by simpa using ht, ?_⟩
      rw [replaceFirst, if_pos h, ht, List.drop_left]
      simp
    · rcases ih with h1 | ⟨pre, suf, hs, hr⟩
      · left
        rw [replaceFirst, if_neg (by simpa using h), h1]
      · right
        refine ⟨c :: pre, suf, by simp [hs], ?_⟩
        rw [replaceFirst, if_neg (by simpa using h), hr]
        simp

theorem replaceFirst_of_no_occurrence {old : List Char} (new : List Char)
    {s : List Char}
    (h : ∀ k, k ≤ s.length → ¬ old.isPrefixOf (s.drop k) = true) :
    replaceFirst old new s = s := by
  induction s with
  | nil =>
    have := h 0 (by simp)
    simp only [List.drop] at this
    simp [replaceFirst, this]
  | cons c rest ih =>
    have h0 := h 0 (by simp)
    simp only [List.drop] at h0
    rw [replaceFirst, if_neg h0, ih ?_]
    intro k hk
    have := h (k + 1) (by simpa using Nat.succ_le_succ hk)
    simpa using this

theorem replaceFirst_first_occurrence {old : List Char} (new : List Char)
    {pre suf : List Char}
    (hmin : ∀ k, k < pre.length →
      ¬ old.isPrefixOf ((pre ++ old ++ suf).drop k) = true) :
    replaceFirst old new (pre ++ old ++ suf) = pre ++ new ++ suf := by
  induction pre with
  | nil => simpa using replaceFirst_append_self old new suf
  | cons c pre' ih =>
    have hnot : ¬ old.isPrefixOf (c :: (pre' ++ old ++ suf)) = true := by
      have := hmin 0 (by simp)
      simpa using this
    have hstep : (c :: pre') ++ old ++ suf = c :: (pre' ++ old ++ suf) := by simp
    rw [hstep, replaceFirst, if_neg hnot, ih ?_]
    · simp
    · intro k hk
      have := hmin (k + 1) (by simpa using Nat.succ_le_succ hk)
      simpa using this

/-! ### Lemmas about `normStep`, `normComps` and `normpath` -/

theorem normStep_nil_comp (init : Nat) (acc : List (List Char)) :
    normStep init acc [] = acc := by
  simp [normStep]

theorem normStep_good {c : List Char} (init : Nat) (acc : List (List Char))
    (h : goodSeg c) : normStep init acc c = c :: acc := by
  obtain ⟨h1, h2, h3, _⟩ := h
  unfold normStep
  rw [if_neg (by simp [h1, h2]), if_pos (Or.inl h3)]

theorem foldl_normStep_goods (init : Nat) {gs : List (List Char)}
    (h : ∀ c ∈ gs, goodSeg c) :
    ∀ acc, gs.foldl (normStep init) acc = gs.reverse ++ acc := by
  induction gs with
  | nil => intro acc; simp
  | cons x rest ih =>
    intro acc
    have hx := h x (List.mem_cons_self x rest)
    rw [List.foldl_cons, normStep_good init acc hx,
      ih (fun c hc => h c (List.mem_cons_of_mem x hc))]
    simp

theorem foldl_normStep_empties (init : Nat) (n : Nat) (acc : List (List Char)) :
    (List.replicate n ([] : List Char)).foldl (normStep init) acc = acc := by
  induction n generalizing acc with
  | zero => rfl
  | succ m ih => rw [List.replicate_succ, List.foldl_cons, normStep_nil_comp, ih]

theorem normStep_dots (k : Nat) :
    normStep 0 (List.replicate k ['.', '.']) ['.', '.']
      = List.replicate (k + 1) ['.', '.'] := by
  cases k with
  | zero =>
    unfold normStep
    rw [if_neg (by simp), if_pos (Or.inr (Or.inl ⟨rfl, rfl⟩))]
    rfl
  | succ m =>
    unfold normStep
    rw [if_neg (by simp), if_pos (Or.inr (Or.inr (by simp [List.replicate_succ])))]
    rw [← List.replicate_succ]

theorem foldl_normStep_dots (m : Nat) :
    ∀ k, (List.replicate m ['.', '.']).foldl (normStep 0)
      (List.replicate k ['.', '.']) = List.replicate (m + k) ['.', '.'] := by
  induction m with
  | zero => intro k; simp
  | succ n ih =>
    intro k
    rw [List.replicate_succ, List.foldl_cons, normStep_dots k, ih (k + 1)]
    congr 1
    omega

theorem normStep_preserves {init : Nat} {acc : List (List Char)}
    {comp : List Char} (hin : NormAcc init acc) (hc : '/' ∉ comp) :
    NormAcc init (normStep init acc comp) := by
  obtain ⟨gs, d, hacc, hgs, hd⟩ := hin
  unfold normStep
  split_ifs with h1 h2
  · exact ⟨gs, d, hacc, hgs, hd⟩
  · by_cases hdd : comp = ['.', '.']
    · rcases h2 with h2 | h2 | h2
      · exact absurd hdd h2
      · -- empty accumulator, no initial slashes: append a `..`
        have hgs0 : gs = [] ∧ List.replicate d (['.', '.'] : List Char) = [] :=
          List.append_eq_nil.mp (by rw [← hacc]; exact h2.2)
        refine ⟨[], d + 1, ?_, by simp, fun hi => absurd h2.1 hi⟩
        have hd0 : d = 0 := by simpa using hgs0.2
        rw [hdd, h2.2, List.nil_append, hd0]
        rfl
      · -- head of the accumulator is `..`: append another `..`
        have hgs0 : gs = [] := by
          cases hgsc : gs with
          | nil => rfl
          | cons x xs =>
            have hx := hgs x (by rw [hgsc]; exact List.mem_cons_self x xs)
            have hhd : acc.head? = some x := by rw [hacc, hgsc]; rfl
            rw [hhd] at h2
            exact absurd (Option.some_injective _ h2) hx.2.2.1
        have hdpos : d ≠ 0 := by
          intro hd0
          rw [hacc, hgs0, hd0] at h2
          simp at h2
        have hi0 : init = 0 := by
          by_contra hi
          exact hdpos (hd hi)
        refine ⟨[], d + 1, ?_, by simp, fun hi => absurd hi0 hi⟩
        rw [hacc, hgs0, hdd]
        simp [List.replicate_succ]
    · -- a real segment is appended
      have hcomp : goodSeg comp := by
        push_neg at h1
        exact ⟨h1.1, h1.2, hdd, hc⟩
      refine ⟨comp :: gs, d, by rw [hacc]; rfl, ?_, hd⟩
      intro c hmem
      rcases List.mem_cons.mp hmem with h | h
      · exact h ▸ hcomp
      · exact hgs c h
  · -- a `..` cancelling the most recent real segment
    push_neg at h2
    cases hgsc : gs with
    | nil =>
      have hd0 : d = 0 := by
        by_contra hdne
        refine h2.2.2 ?_
        rw [hacc, hgsc, List.nil_append]
        cases hdc : d with
        | zero => exact absurd hdc hdne
        | succ m => rw [List.replicate_succ]; rfl
      refine ⟨[], 0, ?_, by simp, fun _ => rfl⟩
      rw [hacc, hgsc, hd0]
      rfl
    | cons x xs =>
      have hmem' : ∀ c ∈ xs, goodSeg c := fun c hmem =>
        hgs c (by rw [hgsc]; exact List.mem_cons_of_mem x hmem)
      refine ⟨xs, d, ?_, hmem', hd⟩
      rw [hacc, hgsc]
      rfl

theorem foldl_normStep_NormAcc {init : Nat} :
    ∀ {comps : List (List Char)} {acc : List (List Char)}, NormAcc init acc →
      (∀ c ∈ comps, '/' ∉ c) → NormAcc init (comps.foldl (normStep init) acc)
  | [], _, hin, _ => hin
  | c :: rest, acc, hin, hc => by
    rw [List.foldl_cons]
    exact foldl_normStep_NormAcc
      (normStep_preserves hin (hc c (List.mem_cons_self c rest)))
      (fun z hz => hc z (List.mem_cons_of_mem c hz))

theorem normComps_shape (init : Nat) (comps : List (List Char))
    (hc : ∀ c ∈ comps, '/' ∉ c) :
    ∃ d gs, normComps init comps = List.replicate d ['.', '.'] ++ gs ∧
      (∀ c ∈ gs, goodSeg c) ∧ (init ≠ 0 → d = 0) := by
  have hbase : NormAcc init [] := ⟨[], 0, by simp, by simp, fun _ => rfl⟩
  obtain ⟨gs, d, heq, hgs, hd⟩ := foldl_normStep_NormAcc hbase hc
  refine ⟨d, gs.reverse, ?_, ?_, hd⟩
  · unfold normComps
    rw [heq, List.reverse_append, List.reverse_replicate]
  · intro c hmem
    exact hgs c (List.mem_reverse.mp hmem)

theorem mem_shape_props {d : Nat} {gs : List (List Char)}
    (hgs : ∀ c ∈ gs, goodSeg c) :
    ∀ c ∈ List.replicate d ['.', '.'] ++ gs, c ≠ [] ∧ '/' ∉ c := by
  intro c hc
  rcases List.mem_append.mp hc with h | h
  · have := List.eq_of_mem_replicate h
    subst this
    exact ⟨by simp, by decide⟩
  · obtain ⟨h1, _, _, h4⟩ := hgs c h
    exact ⟨h1, h4⟩

/-! ### Lemmas about `initialSlashes` -/

theorem isPrefixOf_cons_head {c : Char} {l J : List Char}
    (h : (c :: l).isPrefixOf J = true) : J.head? = some c := by
  obtain ⟨t, ht⟩ := isPrefixOf_iff.mp h
  rw [ht]
  rfl

theorem initialSlashes_le_two (p : List Char) :
    initialSlashes p = 0 ∨ initialSlashes p = 1 ∨ initialSlashes p = 2 := by
  unfold initialSlashes
  split_ifs <;> simp

theorem initialSlashes_cons_ne {a : Char} (ha : a ≠ '/') (t : List Char) :
    initialSlashes (a :: t) = 0 := by
  unfold initialSlashes
  rw [if_neg, if_neg]
  · intro h
    have := isPrefixOf_cons_head h
    simp at this
    exact ha this
  · intro h
    have := isPrefixOf_cons_head h.1
    simp at this
    exact ha this

theorem initialSlashes_one {t : List Char} (ht : t.head? ≠ some '/') :
    initialSlashes ('/' :: t) = 1 := by
  unfold initialSlashes
  rw [if_neg, if_pos]
  · exact isPrefixOf_iff.mpr ⟨t, rfl⟩
  · rintro ⟨h2, -⟩
    obtain ⟨s, hs⟩ := isPrefixOf_iff.mp h2
    injection hs with _ hs2
    exact ht (by rw [hs2]; rfl)

theorem initialSlashes_two {t : List Char} (ht : t.head? ≠ some '/') :
    initialSlashes ('/' :: '/' :: t) = 2 := by
  unfold initialSlashes
  rw [if_pos]
  constructor
  · exact isPrefixOf_iff.mpr ⟨t, rfl⟩
  · intro h3
    obtain ⟨s, hs⟩ := isPrefixOf_iff.mp h3
    injection hs with _ hs2
    injection hs2 with _ hs3
    exact ht (by rw [hs3]; rfl)

theorem initialSlashes_three (t : List Char) :
    initialSlashes ('/' :: '/' :: '/' :: t) = 1 := by
  unfold initialSlashes
  rw [if_neg, if_pos]
  · exact isPrefixOf_iff.mpr ⟨'/' :: '/' :: t, rfl⟩
  · rintro ⟨-, h3⟩
    exact h3 (isPrefixOf_iff.mpr ⟨t, rfl⟩)

theorem initialSlashes_append {p : List Char} (hp : ∃ c ∈ p, c ≠ '/')
    (t : List Char) : initialSlashes (p ++ t) = initialSlashes p := by
  obtain ⟨w, hw, hwne⟩ := hp
  cases p with
  | nil => simp at hw
  | cons a p' =>
    by_cases ha : a = '/'
    · subst ha
      cases p' with
      | nil =>
        rcases List.mem_cons.mp hw with h | h
        · exact absurd h hwne
        · simp at h
      | cons b p'' =>
        by_cases hb : b = '/'
        · subst hb
          cases p'' with
          | nil =>
            rcases List.mem_cons.mp hw with h | h
            · exact absurd h hwne
            · rcases List.mem_cons.mp h with h' | h'
              · exact absurd h' hwne
              · simp at h'
          | cons c p3 =>
            by_cases hc : c = '/'
            · subst hc
              show initialSlashes ('/' :: '/' :: '/' :: (p3 ++ t)) =
                initialSlashes ('/' :: '/' :: '/' :: p3)
              rw [initialSlashes_three, initialSlashes_three]
            · show initialSlashes ('/' :: '/' :: (c :: p3 ++ t)) =
                initialSlashes ('/' :: '/' :: (c :: p3))
              rw [initialSlashes_two (by simpa using hc),
                initialSlashes_two (by simpa using hc)]
        · show initialSlashes ('/' :: (b :: p'' ++ t)) =
            initialSlashes ('/' :: (b :: p''))
          rw [initialSlashes_one (by simpa using hb),
            initialSlashes_one (by simpa using hb)]
    · show initialSlashes (a :: (p' ++ t)) = initialSlashes (a :: p')
      rw [initialSlashes_cons_ne ha, initialSlashes_cons_ne ha]

/-! ### Structural theorems about `normpath` -/

theorem splitSlash_slash_cons (t : List Char) :
    splitSlash ('/' :: t) = [] :: splitSlash t := by
  simp [splitSlash]

theorem normpath_expand {q : List Char} (hq : q ≠ []) :
    normpath q = if List.replicate (initialSlashes q) '/'
        ++ joinSep (normComps (initialSlashes q) (splitSlash q)) = []
      then ['.']
      else List.replicate (initialSlashes q) '/'
        ++ joinSep (normComps (initialSlashes q) (splitSlash q)) := by
  unfold normpath
  rw [if_neg hq]

theorem normpath_of_normal_form (init d : Nat) (gs : List (List Char))
    (h2 : init ≤ 2) (hgs : ∀ c ∈ gs, goodSeg c) (hd : init ≠ 0 → d = 0)
    (hne : List.replicate init '/'
      ++ joinSep (List.replicate d ['.', '.'] ++ gs) ≠ []) :
    normpath (List.replicate init '/'
        ++ joinSep (List.replicate d ['.', '.'] ++ gs))
      = List.replicate init '/'
        ++ joinSep (List.replicate d ['.', '.'] ++ gs) := by
  by_cases hnc0 : List.replicate d (['.', '.'] : List Char) ++ gs = []
  · -- no components: the path is `/` or `//`
    rw [hnc0] at hne ⊢
    interval_cases init
    · simp [joinSep] at hne
    · decide
    · decide
  · have hmem : ∀ c ∈ List.replicate d (['.', '.'] : List Char) ++ gs,
        c ≠ [] ∧ '/' ∉ c := mem_shape_props hgs
    obtain ⟨c0, t0, hJ, hc0⟩ := joinSep_head hnc0 hmem
    have hJhead : (joinSep (List.replicate d (['.', '.'] : List Char) ++ gs)).head?
        ≠ some '/' := by
      rw [hJ]
      simp [hc0]
    have hinit : initialSlashes (List.replicate init '/'
        ++ joinSep (List.replicate d ['.', '.'] ++ gs)) = init := by
      interval_cases init
      · rw [List.replicate, List.nil_append, hJ]
        exact initialSlashes_cons_ne hc0 t0
      · show initialSlashes ('/' :: joinSep _) = 1
        exact initialSlashes_one hJhead
      · show initialSlashes ('/' :: '/' :: joinSep _) = 2
        exact initialSlashes_two hJhead
    have hsplitJ : splitSlash (joinSep (List.replicate d (['.', '.'] : List Char) ++ gs))
        = List.replicate d ['.', '.'] ++ gs :=
      splitSlash_joinSep hnc0 (fun c h => (hmem c h).2)
    have hsplit : splitSlash (List.replicate init '/'
        ++ joinSep (List.replicate d ['.', '.'] ++ gs))
        = List.replicate init [] ++ (List.replicate d ['.', '.'] ++ gs) := by
      interval_cases init
      · simpa using hsplitJ
      · show splitSlash ('/' :: joinSep (List.replicate d ['.', '.'] ++ gs))
          = List.replicate 1 [] ++ (List.replicate d ['.', '.'] ++ gs)
        rw [splitSlash_slash_cons, hsplitJ]
        rfl
      · show splitSlash ('/' :: '/' :: joinSep (List.replicate d ['.', '.'] ++ gs))
          = List.replicate 2 [] ++ (List.replicate d ['.', '.'] ++ gs)
        rw [splitSlash_slash_cons, splitSlash_slash_cons, hsplitJ]
        rfl
    have hinner : (List.replicate d (['.', '.'] : List Char)).foldl
        (normStep init) [] = List.replicate d ['.', '.'] := by
      by_cases hi0 : init = 0
      · subst hi0
        have := foldl_normStep_dots d 0
        simpa using this
      · rw [hd hi0]
        rfl
    have hfold : (List.replicate init ([] : List Char)
          ++ (List.replicate d ['.', '.'] ++ gs)).foldl (normStep init) []
        = gs.reverse ++ List.replicate d ['.', '.'] := by
      rw [List.foldl_append, foldl_normStep_empties, List.foldl_append, hinner,
        foldl_normStep_goods init hgs]
    have hcomps : normComps init (List.replicate init ([] : List Char)
          ++ (List.replicate d ['.', '.'] ++ gs))
        = List.replicate d ['.', '.'] ++ gs := by
      unfold normComps
      rw [hfold, List.reverse_append, List.reverse_reverse,
        List.reverse_replicate]
    rw [normpath_expand hne, hinit, hsplit, hcomps, if_neg hne]

theorem normpath_idem (p : List Char) : normpath (normpath p) = normpath p := by
  by_cases hp : p = []
  · subst hp
    decide
  · obtain ⟨d, gs, hshape, hgs, hd⟩ :=
      normComps_shape (initialSlashes p) (splitSlash p)
        (fun c hc => no_slash_of_mem_splitSlash hc)
    have h2 : initialSlashes p ≤ 2 := by
      rcases initialSlashes_le_two p with h | h | h <;> omega
    have hres := normpath_expand hp
    by_cases hres0 : List.replicate (initialSlashes p) '/'
        ++ joinSep (normComps (initialSlashes p) (splitSlash p)) = []
    · rw [hres, if_pos hres0]
      decide
    · rw [hres, if_neg hres0]
      rw [hshape] at hres0 ⊢
      exact normpath_of_normal_form (initialSlashes p) d gs h2 hgs hd hres0

theorem normpath_canonical {segs : List (List Char)}
    (h1 : ∀ c ∈ segs, goodSeg c) :
    normpath ('/' :: joinSep segs) = '/' :: joinSep segs := by
  have := normpath_of_normal_form 1 0 segs (by omega) h1 (fun _ => rfl)
    (by simp)
  simpa using this

theorem normComps_mem_props {init : Nat} {comps : List (List Char)}
    (hc : ∀ c ∈ comps, '/' ∉ c) :
    ∀ c ∈ normComps init comps, c ≠ [] ∧ '/' ∉ c := by
  obtain ⟨d, gs, hshape, hgs, -⟩ := normComps_shape init comps hc
  rw [hshape]
  exact mem_shape_props hgs

theorem normpath_append {p : List Char} {gs : List (List Char)}
    (hp : ∃ c ∈ p, c ≠ '/') (hgs0 : gs ≠ []) (hgs : ∀ c ∈ gs, goodSeg c)
    (hnc : normComps (initialSlashes p) (splitSlash p) ≠ []) :
    normpath (p ++ '/' :: joinSep gs) = normpath p ++ '/' :: joinSep gs := by
  have hpne : p ≠ [] := by
    rintro rfl
    obtain ⟨c, hc, -⟩ := hp
    simp at hc
  have hqne : p ++ '/' :: joinSep gs ≠ [] := by
    simp [hpne]
  have hinit : initialSlashes (p ++ '/' :: joinSep gs) = initialSlashes p :=
    initialSlashes_append hp _
  have hsplit : splitSlash (p ++ '/' :: joinSep gs) = splitSlash p ++ gs := by
    rw [splitSlash_append, splitSlash_joinSep hgs0 (fun c h => (hgs c h).2.2.2)]
  have hcomps : normComps (initialSlashes p) (splitSlash p ++ gs)
      = normComps (initialSlashes p) (splitSlash p) ++ gs := by
    unfold normComps
    rw [List.foldl_append, foldl_normStep_goods (initialSlashes p) hgs,
      List.reverse_append, List.reverse_reverse]
  have hmemp : ∀ c ∈ normComps (initialSlashes p) (splitSlash p),
      c ≠ [] ∧ '/' ∉ c :=
    normComps_mem_props (fun c hc => no_slash_of_mem_splitSlash hc)
  have hJp : joinSep (normComps (initialSlashes p) (splitSlash p)) ≠ [] :=
    joinSep_ne_nil hnc (fun c h => (hmemp c h).1)
  have hjoin : joinSep (normComps (initialSlashes p) (splitSlash p) ++ gs)
      = joinSep (normComps (initialSlashes p) (splitSlash p))
        ++ '/' :: joinSep gs :=
    joinSep_append hnc hgs0
  have hresp : List.replicate (initialSlashes p) '/'
      ++ joinSep (normComps (initialSlashes p) (splitSlash p)) ≠ [] := by
    simp [hJp]
  rw [normpath_expand hqne, normpath_expand hpne, hinit, hsplit, hcomps, hjoin]
  rw [if_neg (by simp), if_neg hresp]
  simp

/-! ### Lemmas about `expanduser` and `rstripSlash` -/

theorem expanduser_of_head_ne {home s : List Char}
    (h : s.head? ≠ some '~') : expanduser home s = s := by
  cases s with
  | nil => rfl
  | cons c rest =>
    have hc : c ≠ '~' := fun hc => h (by rw [hc]; rfl)
    simp only [expanduser]
    rw [if_pos hc]

theorem expanduser_tilde_slash (home t : List Char) :
    expanduser home ('~' :: '/' :: t) = rstripSlash home ++ '/' :: t := by
  simp [expanduser]

theorem expanduser_tilde (home : List Char) :
    expanduser home ['~']
      = if rstripSlash home = [] then ['/'] else rstripSlash home := by
  simp [expanduser]

theorem rstripSlash_eq_self {s : List Char}
    (h : ∃ c t, s.reverse = c :: t ∧ c ≠ '/') : rstripSlash s = s := by
  obtain ⟨c, t, hrev, hc⟩ := h
  unfold rstripSlash
  rw [hrev, List.dropWhile_cons_of_neg (by simp [hc]), ← hrev,
    List.reverse_reverse]

theorem rstripSlash_canonical {hsegs : List (List Char)} (h0 : hsegs ≠ [])
    (h1 : ∀ c ∈ hsegs, goodSeg c) :
    rstripSlash ('/' :: joinSep hsegs) = '/' :: joinSep hsegs := by
  obtain ⟨c, t, hrev, hc⟩ := joinSep_reverse_head h0
    (fun x hx => ⟨(h1 x hx).1, (h1 x hx).2.2.2⟩)
  apply rstripSlash_eq_self
  refine ⟨c, t ++ ['/'], ?_, hc⟩
  rw [List.reverse_cons, hrev]
  simp

/-! ### Lemmas about `pyMaxByFstLen` and `find_project_alias` -/

theorem foldl_pyMax_mem (xs : List (List Char × List Char))
    (x : List Char × List Char) :
    xs.foldl (fun cur y => if cur.1.length < y.1.length then y else cur) x
      ∈ x :: xs := by
  induction xs generalizing x with
  | nil => simp
  | cons y ys ih =>
    rw [List.foldl_cons]
    have h := ih (if x.1.length < y.1.length then y else x)
    rcases List.mem_cons.mp h with h1 | h1
    · rw [h1]
      split_ifs
      · exact List.mem_cons_of_mem x (List.mem_cons_self y ys)
      · exact List.mem_cons_self x (y :: ys)
    · exact List.mem_cons_of_mem x (List.mem_cons_of_mem y h1)

theorem foldl_pyMax_ge (xs : List (List Char × List Char))
    (x : List Char × List Char) :
    ∀ z ∈ x :: xs, z.1.length ≤
      (xs.foldl (fun cur y => if cur.1.length < y.1.length then y else cur) x).1.length := by
  induction xs generalizing x with
  | nil =>
    intro z hz
    rw [List.mem_singleton.mp hz]
    simp
  | cons y ys ih =>
    intro z hz
    rw [List.foldl_cons]
    have hx : x.1.length ≤ (if x.1.length < y.1.length then y else x).1.length := by
      split_ifs with h
      · exact Nat.le_of_lt h
      · exact Nat.le_refl _
    have hy : y.1.length ≤ (if x.1.length < y.1.length then y else x).1.length := by
      split_ifs with h
      · exact Nat.le_refl _
      · exact Nat.le_of_not_lt h
    rcases List.mem_cons.mp hz with h1 | h1
    · subst h1
      exact Nat.le_trans hx (ih _ _ (List.mem_cons_self _ ys))
    · rcases List.mem_cons.mp h1 with h2 | h2
      · subst h2
        exact Nat.le_trans hy (ih _ _ (List.mem_cons_self _ ys))
      · exact ih _ z (List.mem_cons_of_mem _ h2)

theorem pyMaxByFstLen_eq_none_iff (l : List (List Char × List Char)) :
    pyMaxByFstLen l = none ↔ l = [] := by
  cases l <;> simp [pyMaxByFstLen]

theorem find_project_alias_none_iff (mappings : List (List Char × List Char))
    (home pwd : List Char) :
    find_project_alias mappings home pwd = none ↔
      ∀ m ∈ mappings,
        ¬ (normalize_path home m.1).isPrefixOf (normalize_path home pwd) = true := by
  show pyMaxByFstLen (mappings.filter
      (fun m => (normalize_path home m.1).isPrefixOf (normalize_path home pwd)))
      = none ↔ _
  rw [pyMaxByFstLen_eq_none_iff, List.filter_eq_nil_iff]

theorem find_project_alias_some {mappings : List (List Char × List Char)}
    {home pwd : List Char} {ma : List Char × List Char}
    (h : find_project_alias mappings home pwd = some ma) :
    ma ∈ mappings ∧
      (normalize_path home ma.1).isPrefixOf (normalize_path home pwd) = true ∧
      ∀ m ∈ mappings,
        (normalize_path home m.1).isPrefixOf (normalize_path home pwd) = true →
          m.1.length ≤ ma.1.length := by
  have h' : pyMaxByFstLen (mappings.filter
      (fun m => (normalize_path home m.1).isPrefixOf (normalize_path home pwd)))
      = some ma := h
  cases hfil : mappings.filter
      (fun m => (normalize_path home m.1).isPrefixOf (normalize_path home pwd)) with
  | nil => rw [hfil] at h'; exact absurd h' (by simp [pyMaxByFstLen])
  | cons x xs =>
    rw [hfil] at h'
    simp only [pyMaxByFstLen] at h'
    have hma : ma = xs.foldl
        (fun cur y => if cur.1.length < y.1.length then y else cur) x := by
      exact (Option.some_injective _ h').symm
    have hmem : ma ∈ x :: xs := hma ▸ foldl_pyMax_mem xs x
    have hfilmem : ma ∈ mappings.filter
        (fun m => (normalize_path home m.1).isPrefixOf (normalize_path home pwd)) := by
      rw [hfil]; exact hmem
    have hm := List.mem_filter.mp hfilmem
    refine ⟨hm.1, by simpa using hm.2, ?_⟩
    intro m hmmem hmpre
    have : m ∈ x :: xs := by
      rw [← hfil]
      exact List.mem_filter.mpr ⟨hmmem, by simpa using hmpre⟩
    exact hma ▸ foldl_pyMax_ge xs x m this

theorem find_project_alias_mem {mappings : List (List Char × List Char)}
    {home pwd : List Char} {ma : List Char × List Char}
    (h : find_project_alias mappings home pwd = some ma) : ma ∈ mappings :=
  (find_project_alias_some h).1

/-! ### Lemmas about `strip_leading_slash`, `hasDoubleSlash`, `get_pathname` -/

theorem strip_of_head_ne {s : List Char} (h : s.head? ≠ some '/') :
    strip_leading_slash s = s := by
  cases s with
  | nil => rfl
  | cons c rest =>
    have hc : c ≠ '/' := fun hc => h (by rw [hc]; rfl)
    simp [strip_leading_slash, hc]

theorem head_ne_slash_strip {s : List Char} (h : s.head? ≠ some '/') :
    (strip_leading_slash s).head? ≠ some '/' := by
  rw [strip_of_head_ne h]
  exact h

theorem strip_slash_cons (t : List Char) :
    strip_leading_slash ('/' :: t) = t := by
  simp [strip_leading_slash]

theorem hasDoubleSlash_cons {c : Char} {t : List Char} (hc : c ≠ '/') :
    hasDoubleSlash (c :: t) = hasDoubleSlash t := by
  cases t with
  | nil => rfl
  | cons b t' => simp [hasDoubleSlash, hc]

theorem hasDoubleSlash_cons_false {c : Char} {t : List Char}
    (h : hasDoubleSlash (c :: t) = false) : hasDoubleSlash t = false := by
  cases t with
  | nil => rfl
  | cons b t' =>
    simp [hasDoubleSlash] at h
    exact h.2

theorem hasDoubleSlash_slash {t : List Char}
    (h : hasDoubleSlash ('/' :: t) = false) : t.head? ≠ some '/' := by
  cases t with
  | nil => simp
  | cons b t' =>
    simp [hasDoubleSlash] at h
    simp [h.1]

theorem hasDoubleSlash_append_false {a b : List Char}
    (h : hasDoubleSlash (a ++ b) = false) : hasDoubleSlash b = false := by
  induction a with
  | nil => exact h
  | cons c a' ih => exact ih (hasDoubleSlash_cons_false h)

theorem get_pathname_expand (m : List (List Char × List Char))
    (home cwd : List Char) :
    get_pathname m home cwd =
      match find_project_alias m home (display_form home cwd) with
      | some ma =>
        strip_leading_slash (replaceFirst ma.1 ma.2 (display_form home cwd))
      | none =>
        if display_form home cwd = CODE_ROOT then (display_form home cwd).drop 2
        else strip_leading_slash
          (replaceFirst CODE_ROOT [] (display_form home cwd)) := rfl

theorem expanduser_tilde_of_canonical {home : List Char} (h1 : home ≠ [])
    (h2 : rstripSlash home = home) : expanduser home ['~'] = home := by
  rw [expanduser_tilde, h2, if_neg h1]

theorem display_form_of_home_leading {home rest : List Char} (h1 : home ≠ [])
    (h2 : rstripSlash home = home) :
    display_form home (home ++ rest) = '~' :: rest := by
  unfold display_form
  rw [expanduser_tilde_of_canonical h1 h2, replaceFirst_append_self]
  rfl

theorem not_isPrefixOf_self_append {x e : List Char} (he : e ≠ []) :
    ¬ (x ++ e).isPrefixOf x = true := by
  intro h
  obtain ⟨t, ht⟩ := isPrefixOf_iff.mp h
  have hlen := congrArg List.length ht
  simp only [List.length_append] at hlen
  have he0 : e.length = 0 := by omega
  exact he (List.eq_nil_of_length_eq_zero he0)

/-! ### Lemmas about the benchmark embedding -/

theorem except_bind_ok {α β : Type} (a : α) (f : α → Except BenchError β) :
    (Except.ok a >>= f) = f a := rfl

theorem except_bind_error {α β : Type} (e : BenchError)
    (f : α → Except BenchError β) :
    ((Except.error e : Except BenchError α) >>= f) = Except.error e := rfl

theorem except_pure_eq {α : Type} (a : α) :
    (pure a : Except BenchError α) = Except.ok a := rfl

theorem runSeq_ok {env : Nat → Option ℚ} :
    ∀ (n start : Nat), (∀ k, start ≤ k → k < start + n → (env k).isSome) →
      runSeq env start n
        = Except.ok ((List.range n).map (fun i => (env (start + i)).getD 0))
  | 0, start, _ => by simp [runSeq]
  | n + 1, start, h => by
    obtain ⟨d, hd⟩ := Option.isSome_iff_exists.mp
      (h start (Nat.le_refl _) (by omega))
    have hrc : run_command env start = .ok d := by
      unfold run_command
      rw [hd]
    have hrest := runSeq_ok n (start + 1) (fun k h1 h2 => h k (by omega) (by omega))
    unfold runSeq
    rw [hrc, except_bind_ok, hrest, except_bind_ok, except_pure_eq]
    congr 1
    rw [List.range_succ_eq_map, List.map_cons, List.map_map]
    congr 1
    · rw [Nat.add_zero, hd]
      rfl
    · have harith : (fun i => (env (start + 1 + i)).getD 0)
          = ((fun i => (env (start + i)).getD 0) ∘ Nat.succ) := by
        funext i
        have hi : start + 1 + i = start + (i + 1) := by omega
        simp [Function.comp, hi]
      rw [harith]

theorem runSeq_length {env : Nat → Option ℚ} :
    ∀ {n start : Nat} {l : List ℚ}, runSeq env start n = .ok l → l.length = n
  | 0, start, l, h => by
    simp [runSeq] at h
    simp [h]
  | n + 1, start, l, h => by
    unfold runSeq at h
    cases hrc : run_command env start with
    | error e =>
      rw [hrc, except_bind_error] at h
      exact absurd h (by simp)
    | ok d =>
      rw [hrc, except_bind_ok] at h
      cases hrs : runSeq env (start + 1) n with
      | error e =>
        rw [hrs, except_bind_error] at h
        exact absurd h (by simp)
      | ok rest =>
        rw [hrs, except_bind_ok, except_pure_eq] at h
        have hl : l = d :: rest := by
          have := h
          simp at this
          exact this.symm
        rw [hl]
        simp [runSeq_length hrs]

theorem ofStat_some (a : ℚ) (e : BenchError) :
    ofStat (some a) e = Except.ok a := rfl

theorem ofStat_none (e : BenchError) :
    ofStat none e = Except.error e := rfl

theorem listMin_isSome {l : List ℚ} (h : l ≠ []) :
    ∃ v, listMin l = some v := by
  cases l with
  | nil => exact absurd rfl h
  | cons x xs => exact ⟨_, rfl⟩

theorem listMax_isSome {l : List ℚ} (h : l ≠ []) :
    ∃ v, listMax l = some v := by
  cases l with
  | nil => exact absurd rfl h
  | cons x xs => exact ⟨_, rfl⟩

theorem pyMean_isSome {l : List ℚ} (h : l ≠ []) :
    ∃ v, pyMean l = some v := by
  unfold pyMean
  rw [if_neg h]
  exact ⟨_, rfl⟩

theorem pyMedian_isSome {l : List ℚ} (h : l ≠ []) :
    ∃ v, pyMedian l = some v := by
  unfold pyMedian
  rw [if_neg h]
  split_ifs <;> exact ⟨_, rfl⟩

theorem stdevSq_isSome {l : List ℚ} (h : 2 ≤ l.length) :
    ∃ v, stdevSq l = some v := by
  unfold stdevSq
  rw [if_neg (by omega)]
  exact ⟨_, rfl⟩

theorem stdevSq_none {l : List ℚ} (h : l.length < 2) : stdevSq l = none := by
  unfold stdevSq
  rw [if_pos h]

/-! ## The claims -/

/-- Claim C10: `strip_leading_slash` is total on all strings (totality is
inherent in the Lean function); it removes exactly the first character when
that character is `'/'` and returns the input unchanged otherwise; it
removes at most one character, so an input beginning with `"//"` yields an
output that still begins with `'/'`. -/
theorem c10_strip_leading_slash_spec (s : List Char) :
    (s.head? = some '/' → strip_leading_slash s = s.tail ∧
      (strip_leading_slash s).length + 1 = s.length) ∧
    (s.head? ≠ some '/' → strip_leading_slash s = s) ∧
    ∀ t, s = '/' :: '/' :: t → (strip_leading_slash s).head? = some '/' := by
  refine ⟨?_, strip_of_head_ne, ?_⟩
  · intro h
    cases s with
    | nil => simp at h
    | cons c rest =>
      have hc : c = '/' := by simpa using h
      subst hc
      simp [strip_leading_slash]
  · rintro t rfl
    simp [strip_leading_slash]

/-- Witness for C10 at concrete inputs. -/
theorem c10_witness :
    strip_leading_slash "//a".toList = ("//a".toList).tail ∧
    (strip_leading_slash "//a".toList).head? = some '/' ∧
    strip_leading_slash "ab".toList = "ab".toList :=
  ⟨((c10_strip_leading_slash_spec "//a".toList).1 (by decide)).1,
   (c10_strip_leading_slash_spec "//a".toList).2.2 "a".toList (by decide),
   (c10_strip_leading_slash_spec "ab".toList).2.1 (by decide)⟩

/-- Claim C2: `find_project_alias` returns `none` iff no configured
pattern's normalized form is a string prefix of the normalized working
directory, and when it returns a mapping, that mapping is a configured one
whose normalized pattern matches and whose pattern length is maximal among
all matching patterns. -/
theorem c2_find_project_alias_spec (mappings : List (List Char × List Char))
    (home pwd : List Char) :
    (find_project_alias mappings home pwd = none ↔
      ∀ m ∈ mappings,
        ¬ (normalize_path home m.1).isPrefixOf (normalize_path home pwd) = true) ∧
    ∀ ma, find_project_alias mappings home pwd = some ma →
      ma ∈ mappings ∧
      (normalize_path home ma.1).isPrefixOf (normalize_path home pwd) = true ∧
      ∀ m ∈ mappings,
        (normalize_path home m.1).isPrefixOf (normalize_path home pwd) = true →
          m.1.length ≤ ma.1.length :=
  ⟨find_project_alias_none_iff mappings home pwd,
   fun _ h => find_project_alias_some h⟩

/-- Witness for C2: with patterns `/a` and `/a/b` both matching `/a/b/c`,
the returned pattern is `/a/b`, it matches, and its length is maximal. -/
theorem c2_witness :
    ("/a/b".toList, "y".toList) ∈
      [("/a".toList, "x".toList), ("/a/b".toList, "y".toList)] ∧
    ∀ m ∈ [("/a".toList, "x".toList), ("/a/b".toList, "y".toList)],
      (normalize_path "/root".toList m.1).isPrefixOf
        (normalize_path "/root".toList "/a/b/c".toList) = true →
      m.1.length ≤ ("/a/b".toList, "y".toList).1.length := by
  have h := (c2_find_project_alias_spec
    [("/a".toList, "x".toList), ("/a/b".toList, "y".toList)]
    "/root".toList "/a/b/c".toList).2 ("/a/b".toList, "y".toList) (by decide)
  exact ⟨h.1, h.2.2⟩

/-- Counterexample to claim C5 as stated: the home-directory string is
replaced even when it occurs in a non-leading position.  With home `/root`
and working directory `/data/root/x` (which does not start with `/root`),
the display-form step changes the path to `/data~/x`. -/
theorem c5_counterexample :
    ¬ ("/root".toList).isPrefixOf ("/data/root/x".toList) = true ∧
    display_form "/root".toList "/data/root/x".toList = "/data~/x".toList ∧
    "/data~/x".toList ≠ "/data/root/x".toList := by
  refine ⟨by decide, by decide, by decide⟩

/-- Claim C5 (amended): the display-form step replaces the first occurrence
of the (expanded) home-directory string anywhere in the working directory —
not only a leading occurrence — and leaves the path unchanged exactly when
the home string does not occur at all. -/
theorem c5_display_form_spec (home cwd : List Char) :
    ((∀ k, k ≤ cwd.length →
        ¬ (expanduser home ['~']).isPrefixOf (cwd.drop k) = true) →
      display_form home cwd = cwd) ∧
    ∀ pre suf, cwd = pre ++ expanduser home ['~'] ++ suf →
      (∀ k, k < pre.length →
        ¬ (expanduser home ['~']).isPrefixOf (cwd.drop k) = true) →
      display_form home cwd = pre ++ '~' :: suf := by
  constructor
  · intro h
    exact replaceFirst_of_no_occurrence _ h
  · intro pre suf hdec hmin
    unfold display_form
    subst hdec
    have h := replaceFirst_first_occurrence ['~'] hmin
    simpa using h

/-- Witness for C5 (amended) at concrete inputs: no occurrence leaves the
path unchanged; a non-leading first occurrence is replaced. -/
theorem c5_witness :
    display_form "/root".toList "/abc".toList = "/abc".toList ∧
    display_form "/root".toList "/data/root/x".toList
      = "/data".toList ++ '~' :: "/x".toList :=
  ⟨(c5_display_form_spec "/root".toList "/abc".toList).1 (by decide),
   (c5_display_form_spec "/root".toList "/data/root/x".toList).2
     "/data".toList "/x".toList (by decide) (by decide)⟩

/-- Counterexample to claim C6 as stated: `normalize_path` is not
idempotent for every path.  With home `/root`, the path `./~/x` normalizes
to `~/x`, which normalizes again to `/root/x`. -/
theorem c6_counterexample :
    normalize_path "/root".toList "./~/x".toList = "~/x".toList ∧
    normalize_path "/root".toList
        (normalize_path "/root".toList "./~/x".toList) = "/root/x".toList ∧
    normalize_path "/root".toList "./~/x".toList ≠
      normalize_path "/root".toList
        (normalize_path "/root".toList "./~/x".toList) := by
  refine ⟨by decide, by decide, by decide⟩

/-- Claim C6 (amended): `normalize_path` is idempotent on every path whose
normalized form is not subject to a further tilde expansion, i.e. whose
normalized form is not `~` and does not start with `~/`. -/
theorem c6_normalize_idempotent (home p : List Char)
    (h1 : normalize_path home p ≠ ['~'])
    (h2 : ¬ (['~', '/'].isPrefixOf (normalize_path home p) = true)) :
    normalize_path home (normalize_path home p) = normalize_path home p := by
  have hexp : expanduser home (normalize_path home p) = normalize_path home p := by
    cases hq : normalize_path home p with
    | nil => rfl
    | cons c rest =>
      by_cases hc : c = '~'
      · subst hc
        cases hr : rest with
        | nil =>
          rw [hr] at hq
          exact absurd hq h1
        | cons d rest' =>
          subst hr
          by_cases hd : d = '/'
          · refine absurd ?_ h2
            rw [hq, hd]
            exact isPrefixOf_iff.mpr ⟨rest', rfl⟩
          · simp only [expanduser]
            rw [if_neg (by simp), if_neg (by simp [hd])]
      · exact expanduser_of_head_ne (by simp [hc])
  show normpath (expanduser home (normalize_path home p)) = normalize_path home p
  rw [hexp]
  show normpath (normpath (expanduser home p)) = normpath (expanduser home p)
  exact normpath_idem _

/-- Witness for C6 (amended) at a concrete input. -/
theorem c6_witness :
    normalize_path "/root".toList (normalize_path "/root".toList "/a/b".toList)
      = normalize_path "/root".toList "/a/b".toList :=
  c6_normalize_idempotent "/root".toList "/a/b".toList (by decide) (by decide)

/-- Claim C9: with `iterations` equal to 0 or 1, `benchmark_command` never
returns a `BenchResult`: the unguarded statistics (the `min` of an empty
list, or the sample standard deviation of fewer than two samples) fail
with an error whatever the timing environment does. -/
theorem c9_degenerate_iterations (env : Nat → Option ℚ) (name : List Char)
    (start iterations : Nat) (h : iterations = 0 ∨ iterations = 1) :
    ∀ r, benchmark_command env name start iterations ≠ Except.ok r := by
  intro r hok
  unfold benchmark_command at hok
  cases hw : runSeq env start 5 with
  | error e =>
    rw [hw, except_bind_error] at hok
    exact absurd hok (by simp)
  | ok w =>
    rw [hw, except_bind_ok] at hok
    cases ht : runSeq env (start + 5) iterations with
    | error e =>
      rw [ht, except_bind_error] at hok
      exact absurd hok (by simp)
    | ok times =>
      rw [ht, except_bind_ok] at hok
      have hlen := runSeq_length ht
      rcases h with h | h
      · subst h
        have h0 : times = [] := List.eq_nil_of_length_eq_zero hlen
        subst h0
        rw [show listMin [] = none from rfl, ofStat_none, except_bind_error] at hok
        exact absurd hok (by simp)
      · subst h
        obtain ⟨x, hx⟩ : ∃ x, times = [x] := by
          cases times with
          | nil => simp at hlen
          | cons a l =>
            cases l with
            | nil => exact ⟨a, rfl⟩
            | cons b l' => simp at hlen
        subst hx
        obtain ⟨mn, hmn⟩ := listMin_isSome (show [x] ≠ [] by simp)
        obtain ⟨mx, hmx⟩ := listMax_isSome (show [x] ≠ [] by simp)
        obtain ⟨me, hme⟩ := pyMean_isSome (show [x] ≠ [] by simp)
        obtain ⟨md, hmd⟩ := pyMedian_isSome (show [x] ≠ [] by simp)
        rw [hmn, ofStat_some, except_bind_ok, hmx, ofStat_some, except_bind_ok,
          hme, ofStat_some, except_bind_ok, hmd, ofStat_some, except_bind_ok,
          stdevSq_none (by simp), ofStat_none, except_bind_error] at hok
        exact absurd hok (by simp)

/-- Witness for C9 at a concrete degenerate input. -/
theorem c9_witness :
    benchmark_command (fun _ => some 1) "Python".toList 0 0 ≠
      Except.ok { name := "Python".toList, min := 0, max := 0, mean := 0,
                  median := 0, stddevSq := 0 } :=
  c9_degenerate_iterations (fun _ => some 1) "Python".toList 0 0 (Or.inl rfl) _

/-- Claim C7: for `2 ≤ N`, a successful `benchmark_command` performs
exactly five warm-up invocations whose durations are discarded (the
retained samples start at invocation index `start + 5`), retains exactly
`N` samples in invocation order, and every returned statistic is computed
over exactly those `N` retained samples. -/
theorem c7_benchmark_samples (env : Nat → Option ℚ) (name : List Char)
    (start N : Nat) (hN : 2 ≤ N)
    (henv : ∀ k, k < start + 5 + N → (env k).isSome) :
    ∃ ts r, ts = (List.range N).map (fun i => (env (start + 5 + i)).getD 0) ∧
      runSeq env (start + 5) N = Except.ok ts ∧
      ts.length = N ∧
      benchmark_command env name start N = Except.ok r ∧
      r.name = name ∧
      listMin ts = some r.min ∧ listMax ts = some r.max ∧
      pyMean ts = some r.mean ∧ pyMedian ts = some r.median ∧
      stdevSq ts = some r.stddevSq := by
  have hw : runSeq env start 5
      = Except.ok ((List.range 5).map (fun i => (env (start + i)).getD 0)) :=
    runSeq_ok 5 start (fun k h1 h2 => henv k (by omega))
  have hmt : runSeq env (start + 5) N
      = Except.ok ((List.range N).map (fun i => (env (start + 5 + i)).getD 0)) :=
    runSeq_ok N (start + 5) (fun k h1 h2 => henv k (by omega))
  have htslen : ((List.range N).map
      (fun i => (env (start + 5 + i)).getD 0)).length = N := by simp
  have htsne : (List.range N).map (fun i => (env (start + 5 + i)).getD 0) ≠ [] := by
    intro hnil
    have := congrArg List.length hnil
    simp at this
    omega
  have hts2 : 2 ≤ ((List.range N).map
      (fun i => (env (start + 5 + i)).getD 0)).length := by
    rw [htslen]
    exact hN
  obtain ⟨mn, hmn⟩ := listMin_isSome htsne
  obtain ⟨mx, hmx⟩ := listMax_isSome htsne
  obtain ⟨me, hme⟩ := pyMean_isSome htsne
  obtain ⟨md, hmd⟩ := pyMedian_isSome htsne
  obtain ⟨sd, hsd⟩ := stdevSq_isSome hts2
  refine ⟨(List.range N).map (fun i => (env (start + 5 + i)).getD 0),
    ⟨name, mn, mx, me, md, sd⟩, rfl, hmt, htslen, ?_, rfl, hmn, hmx, hme, hmd, hsd⟩
  unfold benchmark_command
  rw [hw, except_bind_ok, hmt, except_bind_ok, hmn, ofStat_some, except_bind_ok,
    hmx, ofStat_some, except_bind_ok, hme, ofStat_some, except_bind_ok,
    hmd, ofStat_some, except_bind_ok, hsd, ofStat_some, except_bind_ok,
    except_pure_eq]

/-- Witness for C7 at a concrete environment. -/
theorem c7_witness :
    exceptSucceeded (benchmark_command (fun _ => some 1) "Python".toList 0 2)
      = true := by
  obtain ⟨ts, r, -, -, -, hb, -, -, -, -, -, -⟩ :=
    c7_benchmark_samples (fun _ => some 1) "Python".toList 0 2 (by omega)
      (fun k _ => rfl)
  rw [hb]
  rfl

/-- Claim C8: the first failing subprocess invocation aborts the whole run:
if every directory before the current one succeeded and a subprocess of the
current directory's comparison fails, the main loop stops with that error,
produces exactly one report per preceding directory, no report for the
current directory, and never processes the remaining ones (no retry). -/
theorem c8_failure_aborts (env : Nat → Option ℚ) (iterations : Nat)
    (pre post : List (List Char)) (dcur : List Char) (start : Nat)
    (e : BenchError)
    (hpre : ∀ j, j < pre.length →
      exceptSucceeded
        (benchPair env (start + j * benchBlock iterations) iterations) = true)
    (herr : benchPair env (start + pre.length * benchBlock iterations) iterations
      = Except.error e) :
    ∃ rs, mainLoop env iterations (pre ++ dcur :: post) start = (rs, some e) ∧
      rs.length = pre.length := by
  induction pre generalizing start with
  | nil =>
    refine ⟨[], ?_, rfl⟩
    have h0 : benchPair env start iterations = Except.error e := by
      simpa using herr
    show mainLoop env iterations (dcur :: post) start = ([], some e)
    unfold mainLoop
    rw [h0]
  | cons p pre' ih =>
    obtain ⟨pr, hpr⟩ : ∃ pr, benchPair env start iterations = Except.ok pr := by
      have h0 : exceptSucceeded (benchPair env start iterations) = true := by
        have h00 := hpre 0 (by simp)
        simpa using h00
      cases hbp : benchPair env start iterations with
      | error e' =>
        rw [hbp] at h0
        simp [exceptSucceeded] at h0
      | ok pr => exact ⟨pr, rfl⟩
    have hpre' : ∀ j, j < pre'.length →
        exceptSucceeded (benchPair env
          (start + benchBlock iterations + j * benchBlock iterations)
          iterations) = true := by
      intro j hj
      have h := hpre (j + 1) (by simpa using Nat.succ_lt_succ hj)
      have harith : start + (j + 1) * benchBlock iterations
          = start + benchBlock iterations + j * benchBlock iterations := by ring
      rwa [harith] at h
    have herr' : benchPair env
        (start + benchBlock iterations + pre'.length * benchBlock iterations)
        iterations = Except.error e := by
      have harith : start + (p :: pre').length * benchBlock iterations
          = start + benchBlock iterations + pre'.length * benchBlock iterations := by
        rw [List.length_cons]
        ring
      rwa [harith] at herr
    obtain ⟨rs', hml, hlen⟩ := ih (start + benchBlock iterations) hpre' herr'
    refine ⟨pr :: rs', ?_, by simp [hlen]⟩
    show mainLoop env iterations (p :: (pre' ++ dcur :: post)) start
      = (pr :: rs', some e)
    unfold mainLoop
    rw [hpr, hml]

/-- Witness for C8: with a timing environment whose 15th invocation fails,
the first directory produces a report, the run aborts on the second, and no
report is produced for it. -/
theorem c8_witness :
    ∃ rs, mainLoop (fun k => if k < 14 then some 1 else none) 2
        ["a".toList, "b".toList] 0 = (rs, some (.processFailure 14)) ∧
      rs.length = 1 := by
  have h := c8_failure_aborts (fun k => if k < 14 then some 1 else none) 2
    ["a".toList] [] "b".toList 0 (.processFailure 14) ?_ ?_
  · exact h
  · intro j hj
    simp [Nat.lt_one_iff] at hj
    subst hj
    decide
  · rfl

/-- Counterexample to claim C3 as stated: when the display-form path equals
the root marker `~/code` exactly, `get_pathname` returns `"code"` (the root
marker with its first two characters removed), not the empty string. -/
theorem c3_counterexample :
    get_pathname PROJECT_MAPPINGS "/root".toList "/root/code".toList
      = "code".toList ∧ "code".toList ≠ ([] : List Char) := by
  refine ⟨by decide, by decide⟩

/-- Claim C3 (amended): whenever the display-form path equals the root
marker `~/code` exactly, no alias matches and `get_pathname` returns the
root marker with its first two characters removed, i.e. `"code"` (not the
empty string). -/
theorem c3_exact_root (home cwd : List Char)
    (h : display_form home cwd = CODE_ROOT) :
    get_pathname PROJECT_MAPPINGS home cwd = "code".toList := by
  rw [get_pathname_expand, h]
  have hnone : find_project_alias PROJECT_MAPPINGS home CODE_ROOT = none := by
    rw [find_project_alias_none_iff]
    intro m hm
    have hm' : m = ("~/code/github.com/ethereum-optimism/optimism".toList,
        "optimism".toList) := by simpa [PROJECT_MAPPINGS] using hm
    subst hm'
    have hC : CODE_ROOT = '~' :: '/' :: "code".toList := by decide
    have hP : ("~/code/github.com/ethereum-optimism/optimism".toList : List Char)
        = '~' :: '/' :: ("code".toList ++ '/' :: joinSep
          ["github.com".toList, "ethereum-optimism".toList, "optimism".toList]) := by
      decide
    have he1 : expanduser home CODE_ROOT
        = rstripSlash home ++ '/' :: "code".toList := by
      rw [hC]
      exact expanduser_tilde_slash home _
    have he2 : expanduser home
        ("~/code/github.com/ethereum-optimism/optimism".toList)
        = (rstripSlash home ++ '/' :: "code".toList) ++ '/' :: joinSep
          ["github.com".toList, "ethereum-optimism".toList, "optimism".toList] := by
      rw [hP, expanduser_tilde_slash]
      simp
    have hsplit_s : splitSlash (rstripSlash home ++ '/' :: "code".toList)
        = splitSlash (rstripSlash home) ++ ["code".toList] := by
      rw [splitSlash_append,
        show splitSlash "code".toList = ["code".toList] from
          splitSlash_of_no_slash (by decide)]
    have hnc : normComps
        (initialSlashes (rstripSlash home ++ '/' :: "code".toList))
        (splitSlash (rstripSlash home ++ '/' :: "code".toList)) ≠ [] := by
      unfold normComps
      rw [hsplit_s, List.foldl_append, List.foldl_cons,
        normStep_good _ _ (by decide), List.foldl_nil]
      simp
    have hchar : ∃ c ∈ rstripSlash home ++ '/' :: "code".toList, c ≠ '/' := by
      refine ⟨'c', List.mem_append.mpr (Or.inr (by decide)), by decide⟩
    have happ := normpath_append hchar
      (show ["github.com".toList, "ethereum-optimism".toList,
        "optimism".toList] ≠ [] by simp) (by decide) hnc
    have heq : normalize_path home
        ("~/code/github.com/ethereum-optimism/optimism".toList)
        = normalize_path home CODE_ROOT ++ '/' :: joinSep
          ["github.com".toList, "ethereum-optimism".toList, "optimism".toList] := by
      show normpath (expanduser home _) = normpath (expanduser home CODE_ROOT) ++ _
      rw [he1, he2]
      exact happ
    rw [heq]
    exact not_isPrefixOf_self_append (by simp)
  rw [hnone, if_pos rfl]
  decide

/-- Witness for C3 (amended) at the concrete scenario. -/
theorem c3_witness :
    get_pathname PROJECT_MAPPINGS "/root".toList "/root/code".toList
      = "code".toList :=
  c3_exact_root "/root".toList "/root/code".toList (by decide)

theorem head_cons_ne_slash {c : Char} (hc : c ≠ '/') (t : List Char) :
    (c :: t).head? ≠ some '/' := by
  simp [hc]

/-- Counterexample to claim C1 as stated: `get_pathname` can return a
string with a leading `'/'`.  With home `/root` and the (canonical) working
directory `/~/code/x` — a directory literally named `~` under the root —
the fallback deletion of `~/code` creates a doubled separator and
`strip_leading_slash` removes only one of the two, so the display string is
`/x`. -/
theorem c1_counterexample :
    get_pathname PROJECT_MAPPINGS "/root".toList "/~/code/x".toList
      = "/x".toList ∧ ("/x".toList).head? = some '/' := by
  refine ⟨by decide, by decide⟩

/-- Claim C1 (amended): for every working directory that lies under the
home directory (`cwd = home ++ '/' ++ suffix` with `home` in canonical form,
i.e. nonempty and without trailing separators) and whose portion below the
home directory contains no doubled separator, the display string returned
by `get_pathname` never begins with `'/'`. -/
theorem c1_no_leading_slash (home suffix : List Char) (hhome1 : home ≠ [])
    (hhome2 : rstripSlash home = home)
    (hdd : hasDoubleSlash ('/' :: suffix) = false) :
    ¬ (get_pathname PROJECT_MAPPINGS home
        (home ++ '/' :: suffix)).head? = some '/' := by
  have hpwd : display_form home (home ++ '/' :: suffix) = '~' :: '/' :: suffix :=
    display_form_of_home_leading hhome1 hhome2
  rw [get_pathname_expand, hpwd]
  have hpddF : hasDoubleSlash ('~' :: '/' :: suffix) = false := by
    rw [hasDoubleSlash_cons (by decide)]
    exact hdd
  cases hf : find_project_alias PROJECT_MAPPINGS home ('~' :: '/' :: suffix) with
  | some ma =>
    have hma : ma = ("~/code/github.com/ethereum-optimism/optimism".toList,
        "optimism".toList) := by
      simpa [PROJECT_MAPPINGS] using find_project_alias_mem hf
    subst hma
    show ¬ (strip_leading_slash
      (replaceFirst ("~/code/github.com/ethereum-optimism/optimism".toList)
        ("optimism".toList) ('~' :: '/' :: suffix))).head? = some '/'
    rcases replaceFirst_cases
        ("~/code/github.com/ethereum-optimism/optimism".toList)
        ("optimism".toList) ('~' :: '/' :: suffix) with hrc | ⟨pre, suf, hdec, hrc⟩
    · rw [hrc]
      exact head_ne_slash_strip (head_cons_ne_slash (by decide) _)
    · rw [hrc]
      cases pre with
      | nil =>
        rw [List.nil_append,
          show ("optimism".toList : List Char) = 'o' :: "ptimism".toList from rfl,
          List.cons_append]
        exact head_ne_slash_strip (head_cons_ne_slash (by decide) _)
      | cons c pre' =>
        have hc : c = '~' := by
          have h2 := congrArg List.head? hdec
          simp at h2
          exact h2.symm
        subst hc
        rw [List.cons_append, List.cons_append]
        exact head_ne_slash_strip (head_cons_ne_slash (by decide) _)
  | none =>
    by_cases heq : ('~' :: '/' :: suffix : List Char) = CODE_ROOT
    · rw [if_pos heq, heq]
      decide
    · rw [if_neg heq]
      rcases replaceFirst_cases CODE_ROOT [] ('~' :: '/' :: suffix)
        with hrc | ⟨pre, suf, hdec, hrc⟩
      · rw [hrc]
        exact head_ne_slash_strip (head_cons_ne_slash (by decide) _)
      · rw [hrc]
        cases pre with
        | nil =>
          rw [List.nil_append, List.nil_append]
          have hsufDD : hasDoubleSlash suf = false := by
            have hDD2 := hpddF
            rw [List.nil_append] at hdec
            rw [hdec] at hDD2
            exact hasDoubleSlash_append_false hDD2
          cases suf with
          | nil => simp [strip_leading_slash]
          | cons c s' =>
            by_cases hcs : c = '/'
            · subst hcs
              rw [strip_slash_cons]
              exact hasDoubleSlash_slash hsufDD
            · rw [strip_of_head_ne (head_cons_ne_slash hcs _)]
              exact head_cons_ne_slash hcs _
        | cons c pre' =>
          have hc : c = '~' := by
            have h2 := congrArg List.head? hdec
            simp at h2
            exact h2.symm
          subst hc
          rw [List.cons_append, List.cons_append]
          exact head_ne_slash_strip (head_cons_ne_slash (by decide) _)

/-- Witness for C1 (amended) at a concrete input. -/
theorem c1_witness :
    ¬ (get_pathname PROJECT_MAPPINGS "/root".toList
        ("/root".toList ++ '/' :: "code/x".toList)).head? = some '/' :=
  c1_no_leading_slash "/root".toList "code/x".toList (by decide) (by decide)
    (by decide)

theorem replaceFirst_self_pattern (old new : List Char) :
    replaceFirst old new old = new := by
  have h := replaceFirst_append_self old new []
  simpa using h

/-- Claim C4: for the configured mapping, when the working directory equals
or is nested under the pattern (home directory and remainder in canonical
segment form), `get_pathname` returns the alias followed by the remaining
path segments, with no leading separator. -/
theorem c4_alias_result (hsegs rsegs : List (List Char)) (h0 : hsegs ≠ [])
    (h1 : ∀ c ∈ hsegs, goodSeg c) (h2 : ∀ c ∈ rsegs, goodSeg c) :
    get_pathname PROJECT_MAPPINGS ('/' :: joinSep hsegs)
        ('/' :: joinSep (hsegs ++ codeSegs ++ rsegs))
      = joinSep ("optimism".toList :: rsegs) ∧
    ¬ (joinSep ("optimism".toList :: rsegs)).head? = some '/' := by
  have hcode : ∀ c ∈ codeSegs, goodSeg c := by decide
  have hcrne : (codeSegs ++ rsegs : List (List Char)) ≠ [] := by
    simp [codeSegs]
  have hgood_cr : ∀ c ∈ codeSegs ++ rsegs, goodSeg c := by
    intro c hc
    rcases List.mem_append.mp hc with h | h
    · exact hcode c h
    · exact h2 c h
  have hgood_all : ∀ c ∈ hsegs ++ (codeSegs ++ rsegs), goodSeg c := by
    intro c hc
    rcases List.mem_append.mp hc with h | h
    · exact h1 c h
    · exact hgood_cr c h
  have hgood_hc : ∀ c ∈ hsegs ++ codeSegs, goodSeg c := by
    intro c hc
    rcases List.mem_append.mp hc with h | h
    · exact h1 c h
    · exact hcode c h
  have hhomene : ('/' :: joinSep hsegs : List Char) ≠ [] := by simp
  have hrs : rstripSlash ('/' :: joinSep hsegs) = '/' :: joinSep hsegs :=
    rstripSlash_canonical h0 h1
  have hcwd : ('/' :: joinSep (hsegs ++ codeSegs ++ rsegs) : List Char)
      = ('/' :: joinSep hsegs) ++ '/' :: joinSep (codeSegs ++ rsegs) := by
    rw [List.append_assoc, joinSep_append h0 hcrne]
    rfl
  have hpwd : display_form ('/' :: joinSep hsegs)
      ('/' :: joinSep (hsegs ++ codeSegs ++ rsegs))
      = '~' :: '/' :: joinSep (codeSegs ++ rsegs) := by
    rw [hcwd]
    exact display_form_of_home_leading hhomene hrs
  have hPdec : ("~/code/github.com/ethereum-optimism/optimism".toList : List Char)
      = '~' :: '/' :: joinSep codeSegs := by decide
  have hnormpwd : normalize_path ('/' :: joinSep hsegs)
      ('~' :: '/' :: joinSep (codeSegs ++ rsegs))
      = '/' :: joinSep (hsegs ++ (codeSegs ++ rsegs)) := by
    show normpath (expanduser ('/' :: joinSep hsegs)
      ('~' :: '/' :: joinSep (codeSegs ++ rsegs))) = _
    rw [expanduser_tilde_slash, hrs]
    rw [show (('/' :: joinSep hsegs : List Char)
        ++ '/' :: joinSep (codeSegs ++ rsegs))
        = '/' :: joinSep (hsegs ++ (codeSegs ++ rsegs)) from by
      rw [joinSep_append h0 hcrne]
      exact List.cons_append _ _ _]
    exact normpath_canonical hgood_all
  have hnormP : normalize_path ('/' :: joinSep hsegs)
      ("~/code/github.com/ethereum-optimism/optimism".toList)
      = '/' :: joinSep (hsegs ++ codeSegs) := by
    rw [hPdec]
    show normpath (expanduser ('/' :: joinSep hsegs)
      ('~' :: '/' :: joinSep codeSegs)) = _
    rw [expanduser_tilde_slash, hrs]
    rw [show (('/' :: joinSep hsegs : List Char) ++ '/' :: joinSep codeSegs)
        = '/' :: joinSep (hsegs ++ codeSegs) from by
      rw [joinSep_append h0 (by simp [codeSegs])]
      exact List.cons_append _ _ _]
    exact normpath_canonical hgood_hc
  have hpref : (normalize_path ('/' :: joinSep hsegs)
      ("~/code/github.com/ethereum-optimism/optimism".toList)).isPrefixOf
      (normalize_path ('/' :: joinSep hsegs)
        ('~' :: '/' :: joinSep (codeSegs ++ rsegs))) = true := by
    rw [hnormP, hnormpwd]
    apply isPrefixOf_iff.mpr
    cases rsegs with
    | nil => exact ⟨[], by simp⟩
    | cons r rs =>
      refine ⟨'/' :: joinSep (r :: rs), ?_⟩
      rw [show hsegs ++ (codeSegs ++ r :: rs) = (hsegs ++ codeSegs) ++ r :: rs
        from by rw [List.append_assoc]]
      rw [joinSep_append
        (fun hc => h0 (List.append_eq_nil.mp hc).1) (by simp)]
      rfl
  have hfil : PROJECT_MAPPINGS.filter
      (fun m => (normalize_path ('/' :: joinSep hsegs) m.1).isPrefixOf
        (normalize_path ('/' :: joinSep hsegs)
          ('~' :: '/' :: joinSep (codeSegs ++ rsegs))))
      = PROJECT_MAPPINGS := by
    apply List.filter_eq_self.mpr
    intro a ha
    have ha' : a = ("~/code/github.com/ethereum-optimism/optimism".toList,
        "optimism".toList) := by simpa [PROJECT_MAPPINGS] using ha
    subst ha'
    exact hpref
  have hfind : find_project_alias PROJECT_MAPPINGS ('/' :: joinSep hsegs)
      ('~' :: '/' :: joinSep (codeSegs ++ rsegs))
      = some ("~/code/github.com/ethereum-optimism/optimism".toList,
        "optimism".toList) := by
    show pyMaxByFstLen (PROJECT_MAPPINGS.filter
      (fun m => (normalize_path ('/' :: joinSep hsegs) m.1).isPrefixOf
        (normalize_path ('/' :: joinSep hsegs)
          ('~' :: '/' :: joinSep (codeSegs ++ rsegs))))) = _
    rw [hfil]
    rfl
  have hmem : ∀ c ∈ ("optimism".toList :: rsegs : List (List Char)),
      c ≠ [] ∧ '/' ∉ c := by
    intro c hc
    rcases List.mem_cons.mp hc with h | h
    · subst h
      exact ⟨by decide, by decide⟩
    · exact ⟨(h2 c h).1, (h2 c h).2.2.2⟩
  constructor
  · rw [get_pathname_expand, hpwd, hfind]
    show strip_leading_slash (replaceFirst
      ("~/code/github.com/ethereum-optimism/optimism".toList)
      ("optimism".toList) ('~' :: '/' :: joinSep (codeSegs ++ rsegs)))
      = joinSep ("optimism".toList :: rsegs)
    cases rsegs with
    | nil =>
      rw [show ('~' :: '/' :: joinSep (codeSegs ++ ([] : List (List Char)))
          : List Char)
          = "~/code/github.com/ethereum-optimism/optimism".toList from by
        rw [List.append_nil, hPdec]]
      rw [replaceFirst_self_pattern]
      rw [strip_of_head_ne (by decide)]
      rfl
    | cons r rs =>
      have hsplit2 : joinSep (codeSegs ++ r :: rs)
          = joinSep codeSegs ++ '/' :: joinSep (r :: rs) :=
        joinSep_append (by simp [codeSegs]) (by simp)
      have hpwdP : ('~' :: '/' :: joinSep (codeSegs ++ r :: rs) : List Char)
          = "~/code/github.com/ethereum-optimism/optimism".toList
            ++ '/' :: joinSep (r :: rs) := by
        rw [hsplit2, hPdec]
        rfl
      rw [hpwdP, replaceFirst_append_self]
      rw [show ("optimism".toList : List Char) ++ '/' :: joinSep (r :: rs)
          = joinSep ("optimism".toList :: r :: rs) from rfl]
      apply strip_of_head_ne
      rw [show joinSep ("optimism".toList :: r :: rs)
          = "optimism".toList ++ '/' :: joinSep (r :: rs) from rfl]
      rw [show ("optimism".toList : List Char) = 'o' :: "ptimism".toList from rfl,
        List.cons_append]
      exact head_cons_ne_slash (by decide) _
  · obtain ⟨c0, t0, hj, hc0⟩ := joinSep_head
      (show ("optimism".toList :: rsegs : List (List Char)) ≠ [] by simp) hmem
    rw [hj]
    exact head_cons_ne_slash hc0 _

/-- Witness for C4 at the concrete scenario of the specification: working
directory `~/code/github.com/ethereum-optimism/optimism/op-node` (with home
`/root`) and the configured mapping yield `optimism/op-node`. -/
theorem c4_witness :
    get_pathname PROJECT_MAPPINGS "/root".toList
      "/root/code/github.com/ethereum-optimism/optimism/op-node".toList
      = "optimism/op-node".toList := by
  have h := (c4_alias_result [ "root".toList ] [ "op-node".toList ]
    (by simp) (by decide) (by decide)).1
  have e1 : ('/' :: joinSep [ "root".toList ] : List Char) = "/root".toList := by
    decide
  have e2 : ('/' :: joinSep ([ "root".toList ] ++ codeSegs
      ++ [ "op-node".toList ]) : List Char)
      = "/root/code/github.com/ethereum-optimism/optimism/op-node".toList := by
    decide
  have e3 : joinSep ("optimism".toList :: [ "op-node".toList ])
      = "optimism/op-node".toList := by decide
  rw [e1, e2, e3] at h
  exact h

-- Sanity examples (concrete evaluations of the embedding).
example : normpath "/a/./b/../c//".toList = "/a/c".toList := by decide
example : normpath "".toList = ".".toList := by decide
example : normpath "//a".toList = "//a".toList := by decide
example : normpath "///a".toList = "/a".toList := by decide
example : normpath "../..//x".toList = "../../x".toList := by decide
example : expanduser "/root".toList "~/x".toList = "/root/x".toList := by decide
example : expanduser "/root".toList "~u/x".toList = "~u/x".toList := by decide
example : replaceFirst "ab".toList "X".toList "zabab".toList = "zXab".toList := by
  decide
example : replaceFirst [] ['X'] "ab".toList = "Xab".toList := by decide
example :
    get_pathname PROJECT_MAPPINGS "/root".toList
      "/root/code/github.com/ethereum-optimism/optimism/op-node".toList
      = "optimism/op-node".toList := by decide
example :
    get_pathname PROJECT_MAPPINGS "/root".toList "/root/code".toList
      = "code".toList := by decide
example :
    get_pathname PROJECT_MAPPINGS "/root".toList "/root/code/other".toList
      = "other".toList := by decide
example :
    get_pathname PROJECT_MAPPINGS "/root".toList "/~/code/x".toList
      = "/x".toList := by decide

end PromptPath
